import Mathlib

/-!
Verification of the element/hierarchy data model and persistence layer of the
easyMap editor (`src/elements.py`, `src/editor_state.py`).

Embedding conventions:
* Python `dict[str, T]` (insertion ordered, unique keys) is an association
  list `List (String × T)`; `dictInsert` replaces an existing key in place
  and appends a fresh key at the end, `dictGet` returns the first binding,
  exactly as a Python dict behaves on lists with unique keys.
* Python `float` values are only stored and compared by the code under
  study, never computed with, so they are carried as `Rat`.
* `QColor` values are carried as their hex-name string (the code only ever
  constructs a `QColor` from a hex string and reads it back with `.name()`).
* `uuid4().hex` in `new_id` is an effect; the generated id is passed to
  `MapElement.create` as an explicit argument.
* File input/output is an effect; `save_to_file` takes a flag telling
  whether the filesystem write would succeed and returns the written
  document, `load_from_file` takes the parse result of the file
  (`none` when reading or JSON parsing fails).
* A raised Python exception is an `Except.error` / error component.
-/

namespace EasyMap

/-! ### Python dict as association list -/

def dictGet {α : Type} (d : List (String × α)) (k : String) : Option α :=
  match d with
  | [] => none
  | (k', v) :: rest => if k' = k then some v else dictGet rest k

def dictContains {α : Type} (d : List (String × α)) (k : String) : Bool :=
  (dictGet d k).isSome

def dictInsert {α : Type} (d : List (String × α)) (k : String) (v : α) :
    List (String × α) :=
  match d with
  | [] => [(k, v)]
  | (k', v') :: rest =>
    if k' = k then (k, v) :: rest else (k', v') :: dictInsert rest k v

def dictErase {α : Type} (d : List (String × α)) (k : String) :
    List (String × α) :=
  d.filter (fun p => p.1 ≠ k)

/-! ### `elements.py` -/

/-- The `ElementType` enumeration (`elements.py` lines 10-51). -/
inductive ElementType
  | HOUSE_SMALL | HOUSE_LARGE | HOUSE_FANCY
  | VILLAGE_SMALL | VILLAGE_MEDIUM | VILLAGE_LARGE
  | TOWN_SMALL | TOWN_MEDIUM | TOWN_LARGE
  | CITY_SMALL | CITY_MEDIUM | CITY_LARGE
  | COUNTRY_SMALL | COUNTRY_MEDIUM | COUNTRY_LARGE
  | RIVER_SMALL | RIVER_MEDIUM | RIVER_LARGE
  | MOUNTAIN_SMALL | MOUNTAIN_MEDIUM | MOUNTAIN_LARGE
  | MINE_COAL | MINE_IRON | MINE_GOLD | MINE_GEM
  | CUSTOM
  deriving DecidableEq

/-- The string value (display label) of each enum member. -/
def ElementType.value : ElementType → String
  | .HOUSE_SMALL => "小屋"
  | .HOUSE_LARGE => "大屋"
  | .HOUSE_FANCY => "豪宅"
  | .VILLAGE_SMALL => "小村庄"
  | .VILLAGE_MEDIUM => "中村庄"
  | .VILLAGE_LARGE => "大村庄"
  | .TOWN_SMALL => "小镇"
  | .TOWN_MEDIUM => "中镇"
  | .TOWN_LARGE => "大镇"
  | .CITY_SMALL => "小城"
  | .CITY_MEDIUM => "中城"
  | .CITY_LARGE => "大城"
  | .COUNTRY_SMALL => "小国"
  | .COUNTRY_MEDIUM => "中国"
  | .COUNTRY_LARGE => "大国"
  | .RIVER_SMALL => "小溪"
  | .RIVER_MEDIUM => "中河"
  | .RIVER_LARGE => "大河"
  | .MOUNTAIN_SMALL => "小山"
  | .MOUNTAIN_MEDIUM => "中山"
  | .MOUNTAIN_LARGE => "大山"
  | .MINE_COAL => "煤矿"
  | .MINE_IRON => "铁矿"
  | .MINE_GOLD => "金矿"
  | .MINE_GEM => "宝石矿"
  | .CUSTOM => "自定义"

def ElementType.all : List ElementType :=
  [.HOUSE_SMALL, .HOUSE_LARGE, .HOUSE_FANCY,
   .VILLAGE_SMALL, .VILLAGE_MEDIUM, .VILLAGE_LARGE,
   .TOWN_SMALL, .TOWN_MEDIUM, .TOWN_LARGE,
   .CITY_SMALL, .CITY_MEDIUM, .CITY_LARGE,
   .COUNTRY_SMALL, .COUNTRY_MEDIUM, .COUNTRY_LARGE,
   .RIVER_SMALL, .RIVER_MEDIUM, .RIVER_LARGE,
   .MOUNTAIN_SMALL, .MOUNTAIN_MEDIUM, .MOUNTAIN_LARGE,
   .MINE_COAL, .MINE_IRON, .MINE_GOLD, .MINE_GEM,
   .CUSTOM]

/-- Lookup of an enum member by its string value, as the Python call
`ElementType(tag)` would do: `some` member whose `value` is `tag`, `none`
(a raised `ValueError`) when the tag is not recognized. -/
def ElementType.fromValue? (tag : String) : Option ElementType :=
  ElementType.all.find? (fun t => t.value == tag)

/-- `default_settings_for` (`elements.py` lines 58-90). `dict.update` with
fresh keys appends them in order; all keys added by the branches are fresh
with respect to `base`. -/
def default_settings_for (t : ElementType) : List (String × String) :=
  let base : List (String × String) :=
    [("描述", ""), ("阵营/归属", ""), ("人口/规模", ""), ("资源", ""),
     ("备注", ""), ("图片路径", ""), ("图片宽度", "64"), ("图片高度", "64")]
  let base :=
    if t ∈ ([.RIVER_SMALL, .RIVER_MEDIUM, .RIVER_LARGE,
             .MOUNTAIN_SMALL, .MOUNTAIN_MEDIUM, .MOUNTAIN_LARGE] :
              List ElementType) then
      base ++ [("强度/规模", "中"), ("特殊效果", "")]
    else base
  let base :=
    if t ∈ ([.MINE_COAL, .MINE_IRON, .MINE_GOLD, .MINE_GEM] :
              List ElementType) then
      base ++ [("矿种", t.value), ("产出", "")]
    else base
  if t = .CUSTOM then
    base ++ [("自定义类型", ""), ("图标大小", "32"), ("显示名称", "是")]
  else base

/-- The `MapElement` dataclass (`elements.py` lines 93-102). -/
structure MapElement where
  id : String
  type : ElementType
  name : String
  parent_id : Option String := none
  pos : Rat × Rat := (0, 0)
  polyline : List (Rat × Rat) := []
  settings : List (String × String) := []
  deriving DecidableEq

/-- `MapElement.create` (`elements.py` lines 104-119). The generated
`uuid4().hex` id is the argument `eid`. Python `name or default` falls back
to the default both for `None` and for the empty string. -/
def MapElement.create (t : ElementType) (name : Option String)
    (parent_id : Option String) (pos : Rat × Rat) (eid : String) :
    MapElement :=
  { id := eid
    type := t
    name :=
      match name with
      | some n => if n = "" then t.value ++ "-" ++ eid.take 4 else n
      | none => t.value ++ "-" ++ eid.take 4
    parent_id := parent_id
    pos := pos
    settings := default_settings_for t }

/-! ### `editor_state.py`: state and CRUD operations -/

/-- The `EditorState` dataclass (`editor_state.py` lines 13-21). The
`QColor` field is carried as its hex name string. -/
structure EditorState where
  elements : List (String × MapElement) := []
  selected_id : Option String := none
  base_color : String := "#d9d9d9"
  contrast : Rat := Rat.mk' 3 4
  deriving DecidableEq

def EditorState.init : EditorState := {}

/-- `add_element` (lines 23-25). -/
def EditorState.add_element (s : EditorState) (e : MapElement) : EditorState :=
  { s with elements := dictInsert s.elements e.id e, selected_id := some e.id }

/-- `get` (lines 27-30): a falsy id (`None` or `""`) yields `None`. -/
def EditorState.get (s : EditorState) (element_id : Option String) :
    Option MapElement :=
  match element_id with
  | none => none
  | some k => if k = "" then none else dictGet s.elements k

/-- `children_of` (lines 32-33). -/
def children_of (s : EditorState) (parent_id : Option String) :
    List MapElement :=
  (s.elements.map Prod.snd).filter (fun e => e.parent_id == parent_id)

/-- The tail of one `delete_element_recursive` call (lines 39-43): after
the children's subtrees are gone, delete the element itself and clear the
selection when it equals the deleted id. -/
def deleteFinish (s1 : EditorState) (element_id : String) : EditorState :=
  let s2 := { s1 with elements := dictErase s1.elements element_id }
  if s2.selected_id = some element_id then { s2 with selected_id := none }
  else s2

/-- The recursion of `delete_element_recursive` (lines 35-43), made total
with a fuel argument: the Python original recurses without any guard and
diverges on a cyclic parent graph, which the embedding renders as `none`
when the fuel runs out. Each call snapshots the current children, deletes
their subtrees left to right threading the state, then finishes with
`deleteFinish`. -/
def delete_rec : Nat → EditorState → String → Option EditorState
  | 0, _, _ => none
  | fuel + 1, s, element_id =>
    match ((children_of s (some element_id)).map MapElement.id).foldlM
      (fun acc c => delete_rec fuel acc c) s with
    | none => none
    | some s1 => some (deleteFinish s1 element_id)

/-- `delete_element_recursive` (lines 35-43). The fuel
`s.elements.length + 1` is proven sufficient whenever the parent graph is
acyclic (`delete_rec_spec` below); on a cyclic graph the original Python
diverges and this embedding returns `none`. -/
def delete_element_recursive (s : EditorState) (element_id : String) :
    Option EditorState :=
  delete_rec (s.elements.length + 1) s element_id

/-- `set_selected` (lines 45-46): `element_id if element_id in self.elements
else None`; `None in dict` is `False`, so a `none` argument clears. -/
def EditorState.set_selected (s : EditorState) (element_id : Option String) :
    EditorState :=
  { s with selected_id :=
      if (match element_id with
          | some k => dictContains s.elements k
          | none => false) then element_id else none }

/-- `update_name` (lines 48-51). -/
def EditorState.update_name (s : EditorState) (element_id name : String) :
    EditorState :=
  match dictGet s.elements element_id with
  | none => s
  | some e =>
    { s with elements := dictInsert s.elements element_id ({ e with name := name }) }

/-- `update_setting` (lines 53-56). -/
def EditorState.update_setting (s : EditorState)
    (element_id key value : String) : EditorState :=
  match dictGet s.elements element_id with
  | none => s
  | some e =>
    let e' := { e with settings := dictInsert e.settings key value }
    { s with elements := dictInsert s.elements element_id e' }

/-- `update_parent` (lines 58-61). -/
def EditorState.update_parent (s : EditorState) (element_id : String)
    (parent_id : Option String) : EditorState :=
  match dictGet s.elements element_id with
  | none => s
  | some e =>
    let e' := { e with parent_id := parent_id }
    { s with elements := dictInsert s.elements element_id e' }

/-- `create_element` (lines 63-73): build via `MapElement.create` and add.
`eid` is the id generated by `new_id` inside `MapElement.create`. -/
def EditorState.create_element (s : EditorState) (t : ElementType)
    (parent_id : Option String) (name : Option String) (x y : Rat)
    (eid : String) : MapElement × EditorState :=
  let e := MapElement.create t name parent_id (x, y) eid
  (e, s.add_element e)

/-- `clear` (lines 124-129). -/
def EditorState.clear (_ : EditorState) : EditorState :=
  { elements := [], selected_id := none, base_color := "#d9d9d9",
    contrast := Rat.mk' 3 4 }

/-- `set_background` (lines 131-134). -/
def EditorState.set_background (s : EditorState) (color : String)
    (contrast : Rat) : EditorState :=
  { s with base_color := color, contrast := contrast }

/-! ### `editor_state.py`: persistence -/

/-- A raised Python exception, as far as the persistence layer observes it. -/
inductive PyErr
  | attributeError
  deriving DecidableEq

/-- An entry of the `elements` array of a persisted document. The loader
(`MapElement.from_dict`, see `callMapElementFromDict`) raises before
examining any field of the record, so only the type tag — which the claims
speak about — is represented; the remaining JSON content of a record is
irrelevant to the semantics. -/
structure ElemRecord where
  type_tag : String
  deriving DecidableEq

/-- The `background` sub-record of a persisted document. -/
structure BgRecord where
  color : Option String := none
  contrast : Option Rat := none
  deriving DecidableEq

/-- A persisted document: the JSON object written and read by
`save_to_file` / `load_from_file` (`editor_state.py` lines 75-122). -/
structure Doc where
  elements : List ElemRecord
  selected_id : Option String := none
  background : Option BgRecord := none
  deriving DecidableEq

/-- Models the expression `element.to_dict()` in `EditorState.to_dict`
(`editor_state.py` line 78): the `MapElement` dataclass declares no
`to_dict` method anywhere in the repository, so the attribute lookup raises
`AttributeError` for every element. -/
def callElementToDict (_ : MapElement) : Except PyErr ElemRecord :=
  .error .attributeError

/-- Models the expression `MapElement.from_dict(element_data)` in
`EditorState.load_from_dict` (`editor_state.py` line 90): `MapElement`
declares no `from_dict` method anywhere in the repository, so the attribute
lookup raises `AttributeError` before the record is examined. -/
def callMapElementFromDict (_ : ElemRecord) : Except PyErr MapElement :=
  .error .attributeError

/-- `to_dict` (lines 75-84): serialize every element in mapping order, then
the selection and the background (color hex name and contrast). -/
def EditorState.to_dict (s : EditorState) : Except PyErr Doc := do
  let recs ← (s.elements.map Prod.snd).mapM callElementToDict
  pure { elements := recs
         selected_id := s.selected_id
         background := some { color := some s.base_color
                              contrast := some s.contrast } }

/-- The element-loading loop of `load_from_dict` (lines 88-91): the state
is threaded left to right; a raised exception propagates carrying the state
as mutated so far (`Except.error`). -/
def loadElems (s : EditorState) : List ElemRecord →
    Except EditorState EditorState
  | [] => .ok s
  | r :: rs =>
    match callMapElementFromDict r with
    | .error _ => .error s
    | .ok e => loadElems { s with elements := dictInsert s.elements e.id e } rs

/-- `load_from_dict` (lines 86-100). The element mapping is cleared FIRST,
then each record is reconstructed; on success the selection is taken from
the document without validation and background color/contrast are each
overwritten only when present. The boolean is `false` when an exception
escaped (to the caller's handler), and the returned state is the state the
mutations have left behind at that point. -/
def load_from_dict (s : EditorState) (data : Doc) : EditorState × Bool :=
  match loadElems { s with elements := [] } data.elements with
  | .error sErr => (sErr, false)
  | .ok s1 =>
    let s2 := { s1 with selected_id := data.selected_id }
    let s3 :=
      match data.background with
      | none => s2
      | some bg =>
        let s2a := match bg.color with
          | none => s2
          | some c => { s2 with base_color := c }
        match bg.contrast with
        | none => s2a
        | some v => { s2a with contrast := v }
    (s3, true)

/-- `save_to_file` (lines 102-111): any exception (the `AttributeError`
from serialization, or a failing filesystem write, represented by
`writeOk = false`) is caught and turned into `false`; on success the
serialized document is written and `true` returned. -/
def save_to_file (s : EditorState) (writeOk : Bool) : Bool × Option Doc :=
  match s.to_dict with
  | .error _ => (false, none)
  | .ok d => if writeOk then (true, some d) else (false, none)

/-- `load_from_file` (lines 113-122): `readResult` is `none` when opening
or JSON-parsing the file raises (the state is then untouched); otherwise
the parsed document is handed to `load_from_dict`, whose escaping exception
is caught by the same handler and turned into `false`. -/
def load_from_file (s : EditorState) (readResult : Option Doc) :
    EditorState × Bool :=
  match readResult with
  | none => (s, false)
  | some d => load_from_dict s d

/-! ### Specification vocabulary: parent chains, subtrees, well-formed stores -/

/-- The parent reference of the element stored under `a`, if any. -/
def parentOf (s : EditorState) (a : String) : Option String :=
  match dictGet s.elements a with
  | some e => e.parent_id
  | none => none

/-- `reachesUp s n a x`: starting from id `a` and following at most `n`
parent references of stored elements, the value `x` is encountered
(in at least one step). -/
def reachesUp (s : EditorState) : Nat → String → String → Bool
  | 0, _, _ => false
  | n + 1, a, x =>
    match parentOf s a with
    | some p => p == x || reachesUp s n p x
    | none => false

/-- The parent chain of `a` properly reaches `x` (in one or more steps,
every intermediate node being a stored element). -/
def Reaches (s : EditorState) (a x : String) : Prop :=
  ∃ n, reachesUp s n a x = true

/-- `a` is in the subtree rooted at `x`: it is `x` itself or its parent
chain reaches `x`. `delete_element_recursive x` is specified to remove
exactly the stored elements with this property. -/
def InSub (s : EditorState) (x a : String) : Prop :=
  a = x ∨ Reaches s a x

/-- The parent references of the store form an acyclic graph. -/
def Acyclic (s : EditorState) : Prop :=
  ∀ a, ¬ Reaches s a a

/-- `chainEnds s n a`: following parent references from `a` hits a missing
parent (or an absent element) within `n` steps. -/
def chainEnds (s : EditorState) : Nat → String → Bool
  | 0, _ => false
  | n + 1, a =>
    match parentOf s a with
    | none => true
    | some p => chainEnds s n p

/-- A decidable sufficient criterion for `Acyclic`: every stored id's
parent chain terminates within `|elements|` steps. -/
def acyclicB (s : EditorState) : Bool :=
  (s.elements.map Prod.fst).all (fun a => chainEnds s s.elements.length a)

/-- `s1` holds a subset of the bindings of `s` (deletion only removes). -/
def SubState (s1 s : EditorState) : Prop :=
  ∀ a e, dictGet s1.elements a = some e → dictGet s.elements a = some e

/-- Store well-formedness, guaranteed structurally for any Python dict
keyed by element id: keys are unique and each entry's key is its
element's `id` (`add_element` and `load_from_dict` only ever insert under
`element.id`). -/
def Wf (s : EditorState) : Prop :=
  (s.elements.map Prod.fst).Nodup ∧ ∀ p ∈ s.elements, p.2.id = p.1

instance (s : EditorState) : Decidable (Wf s) := by
  unfold Wf; infer_instance

/-- The selection invariant: the selected id is `None` or a live key. -/
def selInvB (s : EditorState) : Bool :=
  match s.selected_id with
  | none => true
  | some y => dictContains s.elements y

/-- A descending child path below `x`: `DPath s x (c :: l)` holds when `c`
is a stored element whose parent is `x` and `l` descends below `c`. Its
length bounds the recursion depth of `delete_element_recursive`. -/
inductive DPath (s : EditorState) : String → List String → Prop
  | nil (x : String) : DPath s x []
  | cons {x c : String} {l : List String} (e : MapElement) :
      dictGet s.elements c = some e → e.parent_id = some x →
      DPath s c l → DPath s x (c :: l)

/-- What `delete_element_recursive s x = some s'` guarantees: exactly the
subtree of `x` is removed, the selection is cleared precisely when it lay
in that subtree, and the background fields are untouched. -/
def DelChar (s : EditorState) (x : String) (s' : EditorState) : Prop :=
  (∀ a, InSub s x a → dictGet s'.elements a = none) ∧
  (∀ a, ¬ InSub s x a → dictGet s'.elements a = dictGet s.elements a) ∧
  (∀ y, s.selected_id = some y →
    (InSub s x y → s'.selected_id = none) ∧
    (¬ InSub s x y → s'.selected_id = some y)) ∧
  (s.selected_id = none → s'.selected_id = none) ∧
  s'.base_color = s.base_color ∧ s'.contrast = s.contrast ∧ Wf s'

/-- The same characterization for deleting a list of subtrees in order. -/
def ListChar (s : EditorState) (cs : List String) (s' : EditorState) : Prop :=
  (∀ a, (∃ c ∈ cs, InSub s c a) → dictGet s'.elements a = none) ∧
  (∀ a, (¬ ∃ c ∈ cs, InSub s c a) →
    dictGet s'.elements a = dictGet s.elements a) ∧
  (∀ y, s.selected_id = some y →
    ((∃ c ∈ cs, InSub s c y) → s'.selected_id = none) ∧
    ((¬ ∃ c ∈ cs, InSub s c y) → s'.selected_id = some y)) ∧
  (s.selected_id = none → s'.selected_id = none) ∧
  s'.base_color = s.base_color ∧ s'.contrast = s.contrast ∧ Wf s'

/-- The stores reachable from the fresh empty store through the public
mutating operations. The flag tells whether deserialization
(`load_from_dict`, reached through `load_from_file`) is permitted in the
sequence; `save_to_file` never mutates the store and is omitted. The id
handed to `create_element` is the fresh uuid produced by `new_id`. -/
inductive Reachable : Bool → EditorState → Prop
  | base (b : Bool) : Reachable b EditorState.init
  | create {b s} (t : ElementType) (parent_id : Option String)
      (name : Option String) (x y : Rat) (eid : String) :
      Reachable b s → Reachable b (s.create_element t parent_id name x y eid).2
  | add {b s} (e : MapElement) :
      Reachable b s → Reachable b (s.add_element e)
  | rename {b s} (element_id name : String) :
      Reachable b s → Reachable b (s.update_name element_id name)
  | setting {b s} (element_id key value : String) :
      Reachable b s → Reachable b (s.update_setting element_id key value)
  | reparent {b s} (element_id : String) (parent_id : Option String) :
      Reachable b s → Reachable b (s.update_parent element_id parent_id)
  | del {b s s'} (element_id : String) :
      Reachable b s → delete_element_recursive s element_id = some s' →
      Reachable b s'
  | select {b s} (element_id : Option String) :
      Reachable b s → Reachable b (s.set_selected element_id)
  | background {b s} (color : String) (contrast : Rat) :
      Reachable b s → Reachable b (s.set_background color contrast)
  | wipe {b s} : Reachable b s → Reachable b s.clear
  | load {s} (d : Doc) :
      Reachable true s → Reachable true (load_from_dict s d).1

/-! ### Concrete stores and documents used as test inputs -/

def elemOne : MapElement := MapElement.create .CUSTOM none none (0, 0) "e1"

/-- A store holding a single element, reachable by one `create_element`. -/
def sOne : EditorState := (EditorState.init.create_element .CUSTOM none none 0 0 "e1").2

/-- A document whose first element record carries an unrecognized type tag. -/
def docBadTag : Doc := { elements := [{ type_tag := "没有这种类型" }] }

/-- A document with no elements and a dangling selection id. -/
def docSel : Doc := { elements := [], selected_id := some "ghost" }

/-- The store produced by deserializing `docSel` into a fresh store: empty,
yet with selection `"ghost"`. -/
def sGhost : EditorState := { selected_id := some "ghost" }

/-- A store with a non-default background and no elements. -/
def s8 : EditorState := { base_color := "#112233", contrast := Rat.mk' 1 2 }

/-- A document with no elements and no background sub-record. -/
def d8 : Doc := { elements := [] }

def treeA : MapElement := { id := "a", type := .TOWN_SMALL, name := "A" }

def treeB : MapElement :=
  { id := "b", type := .HOUSE_SMALL, name := "B", parent_id := some "a" }

def treeC : MapElement :=
  { id := "c", type := .HOUSE_LARGE, name := "C", parent_id := some "b" }

def treeR : MapElement := { id := "r", type := .CITY_SMALL, name := "R" }

/-- A store with the hierarchy `a → b → c` and an unrelated root `r`. -/
def sTree : EditorState :=
  { elements := [("a", treeA), ("b", treeB), ("c", treeC), ("r", treeR)]
    selected_id := some "c" }

/-- `sTree` with the selection on the unrelated root `r`. -/
def sTreeR : EditorState := { sTree with selected_id := some "r" }

/-! ### Lemmas about the dict model -/

theorem dictGet_dictInsert {α : Type} (d : List (String × α)) (k a : String)
    (v : α) :
    dictGet (dictInsert d k v) a = if k = a then some v else dictGet d a := by
  induction d with
  | nil => simp [dictInsert, dictGet]
  | cons p rest ih =>
    obtain ⟨k', v'⟩ := p
    by_cases hk : k' = k
    · subst hk
      by_cases h : k' = a <;> simp [dictInsert, dictGet, h]
    · by_cases h : k' = a
      · have hka : ¬ k = a := fun hh => hk (h.trans hh.symm)
        have hak : ¬ a = k := fun hh => hka hh.symm
        simp [dictInsert, dictGet, hk, h, hka, hak]
      · simp [dictInsert, dictGet, hk, h, ih]

theorem dictErase_cons {α : Type} (k' : String) (v' : α)
    (rest : List (String × α)) (k : String) :
    dictErase ((k', v') :: rest) k =
      if k' = k then dictErase rest k else (k', v') :: dictErase rest k := by
  by_cases h : k' = k <;> simp [dictErase, List.filter_cons, h]

theorem dictGet_dictErase {α : Type} (d : List (String × α)) (k a : String) :
    dictGet (dictErase d k) a = if k = a then none else dictGet d a := by
  induction d with
  | nil => simp [dictErase, dictGet]
  | cons p rest ih =>
    obtain ⟨k', v'⟩ := p
    rw [dictErase_cons]
    by_cases hk : k' = k
    · rw [if_pos hk]; subst hk
      by_cases h : k' = a
      · subst h; simp [dictGet, ih]
      · simp [dictGet, h, ih]
    · rw [if_neg hk]
      by_cases h : k' = a
      · have hka : ¬ k = a := fun hh => hk (h.trans hh.symm)
        simp [dictGet, h, hka]
      · simp [dictGet, h, ih]

theorem mem_of_dictGet {α : Type} {d : List (String × α)} {k : String}
    {v : α} (h : dictGet d k = some v) : (k, v) ∈ d := by
  induction d with
  | nil => simp [dictGet] at h
  | cons p rest ih =>
    obtain ⟨k', v'⟩ := p
    by_cases hk : k' = k
    · subst hk
      simp [dictGet] at h
      subst h; exact List.mem_cons_self _ _
    · simp [dictGet, hk] at h
      exact List.mem_cons_of_mem _ (ih h)

theorem dictGet_eq_none {α : Type} {d : List (String × α)} {k : String}
    (h : k ∉ d.map Prod.fst) : dictGet d k = none := by
  induction d with
  | nil => rfl
  | cons p rest ih =>
    obtain ⟨k', v'⟩ := p
    simp only [List.map_cons, List.mem_cons] at h
    push_neg at h
    have : ¬ k' = k := fun hh => h.1 hh.symm
    simp [dictGet, this, ih h.2]

theorem mem_keys_of_dictGet {α : Type} {d : List (String × α)} {k : String}
    {v : α} (h : dictGet d k = some v) : k ∈ d.map Prod.fst := by
  by_contra hk
  rw [dictGet_eq_none hk] at h
  exact Option.noConfusion h

theorem dictGet_of_mem_nodup {α : Type} {d : List (String × α)}
    (hn : (d.map Prod.fst).Nodup) {k : String} {v : α} (hm : (k, v) ∈ d) :
    dictGet d k = some v := by
  induction d with
  | nil => cases hm
  | cons p rest ih =>
    obtain ⟨k', v'⟩ := p
    simp only [List.map_cons, List.nodup_cons] at hn
    rcases List.mem_cons.mp hm with h | h
    · cases h; simp [dictGet]
    · have hk : ¬ k' = k := by
        intro hh; subst hh
        exact hn.1 (List.mem_map.mpr ⟨(k', v), h, rfl⟩)
      simp [dictGet, hk, ih hn.2 h]

theorem dictErase_sublist {α : Type} (d : List (String × α)) (k : String) :
    List.Sublist (dictErase d k) d :=
  List.filter_sublist d

theorem dictErase_of_not_mem {α : Type} {d : List (String × α)} {k : String}
    (h : dictGet d k = none) : dictErase d k = d := by
  induction d with
  | nil => rfl
  | cons p rest ih =>
    obtain ⟨k', v'⟩ := p
    rw [dictErase_cons]
    by_cases hk : k' = k
    · subst hk; simp [dictGet] at h
    · simp only [dictGet, hk, if_false] at h
      rw [if_neg hk, ih h]

theorem dictContains_iff {α : Type} (d : List (String × α)) (k : String) :
    dictContains d k = true ↔ ∃ v, dictGet d k = some v := by
  unfold dictContains
  cases h : dictGet d k <;> simp [Option.isSome]

/-! ### Lemmas about parent chains -/

theorem parentOf_eq_some {s : EditorState} {a p : String} :
    parentOf s a = some p ↔
      ∃ e, dictGet s.elements a = some e ∧ e.parent_id = some p := by
  unfold parentOf
  cases h : dictGet s.elements a <;> simp

theorem reachesUp_succ_iff {s : EditorState} {n : Nat} {a x : String} :
    reachesUp s (n + 1) a x = true ↔
      ∃ p, parentOf s a = some p ∧ (p = x ∨ reachesUp s n p x = true) := by
  cases hp : parentOf s a with
  | none => simp [reachesUp, hp]
  | some p => simp [reachesUp, hp]

theorem reachesUp_mono {s : EditorState} {a x : String} {n m : Nat}
    (h : n ≤ m) (hr : reachesUp s n a x = true) : reachesUp s m a x = true := by
  induction n generalizing a m with
  | zero => simp [reachesUp] at hr
  | succ k ih =>
    obtain ⟨p, hp, hc⟩ := reachesUp_succ_iff.mp hr
    obtain ⟨m', rfl⟩ : ∃ m', m = m' + 1 := ⟨m - 1, by omega⟩
    have hk : k ≤ m' := by omega
    refine reachesUp_succ_iff.mpr ⟨p, hp, ?_⟩
    rcases hc with rfl | hr'
    · exact Or.inl rfl
    · exact Or.inr (ih hk hr')

theorem reaches_step_iff {s : EditorState} {a x : String} :
    Reaches s a x ↔
      ∃ p, parentOf s a = some p ∧ (p = x ∨ Reaches s p x) := by
  constructor
  · rintro ⟨n, hn⟩
    cases n with
    | zero => simp [reachesUp] at hn
    | succ k =>
      obtain ⟨p, hp, hc⟩ := reachesUp_succ_iff.mp hn
      exact ⟨p, hp, hc.imp id (fun h => ⟨k, h⟩)⟩
  · rintro ⟨p, hp, hc⟩
    rcases hc with rfl | ⟨n, hn⟩
    · exact ⟨1, reachesUp_succ_iff.mpr ⟨p, hp, Or.inl rfl⟩⟩
    · exact ⟨n + 1, reachesUp_succ_iff.mpr ⟨p, hp, Or.inr hn⟩⟩

theorem reaches_of_parent {s : EditorState} {a p : String}
    (hp : parentOf s a = some p) : Reaches s a p :=
  ⟨1, reachesUp_succ_iff.mpr ⟨p, hp, Or.inl rfl⟩⟩

theorem reaches_trans {s : EditorState} {a b c : String}
    (h1 : Reaches s a b) (h2 : Reaches s b c) : Reaches s a c := by
  obtain ⟨n, hn⟩ := h1
  induction n generalizing a with
  | zero => simp [reachesUp] at hn
  | succ k ih =>
    obtain ⟨p, hp, hc⟩ := reachesUp_succ_iff.mp hn
    rcases hc with rfl | hr
    · exact reaches_step_iff.mpr ⟨p, hp, Or.inr h2⟩
    · exact reaches_step_iff.mpr ⟨p, hp, Or.inr (ih hr)⟩

theorem stored_of_reaches {s : EditorState} {a x : String}
    (h : Reaches s a x) : ∃ e, dictGet s.elements a = some e := by
  obtain ⟨p, hp, _⟩ := reaches_step_iff.mp h
  obtain ⟨e, he, _⟩ := parentOf_eq_some.mp hp
  exact ⟨e, he⟩

theorem parentOf_mono {s1 s : EditorState} (hs : SubState s1 s) {a p : String}
    (h : parentOf s1 a = some p) : parentOf s a = some p := by
  obtain ⟨e, he, hpe⟩ := parentOf_eq_some.mp h
  exact parentOf_eq_some.mpr ⟨e, hs a e he, hpe⟩

theorem reachesUp_mono_state {s1 s : EditorState} (hs : SubState s1 s)
    {n : Nat} {a x : String} (h : reachesUp s1 n a x = true) :
    reachesUp s n a x = true := by
  induction n generalizing a with
  | zero => simp [reachesUp] at h
  | succ k ih =>
    obtain ⟨p, hp, hc⟩ := reachesUp_succ_iff.mp h
    exact reachesUp_succ_iff.mpr ⟨p, parentOf_mono hs hp, hc.imp id ih⟩

theorem reaches_mono_state {s1 s : EditorState} (hs : SubState s1 s)
    {a x : String} (h : Reaches s1 a x) : Reaches s a x := by
  obtain ⟨n, hn⟩ := h
  exact ⟨n, reachesUp_mono_state hs hn⟩

theorem insub_mono_state {s1 s : EditorState} (hs : SubState s1 s)
    {x a : String} (h : InSub s1 x a) : InSub s x a :=
  h.imp id (reaches_mono_state hs)

theorem acyclic_mono_state {s1 s : EditorState} (hs : SubState s1 s)
    (ha : Acyclic s) : Acyclic s1 :=
  fun a h => ha a (reaches_mono_state hs h)

theorem chainEnds_false_of_cycle {s : EditorState} {a : String}
    (h : Reaches s a a) : ∀ m, chainEnds s m a = false := by
  intro m
  induction m generalizing a with
  | zero => rfl
  | succ k ih =>
    obtain ⟨p, hp, hc⟩ := reaches_step_iff.mp h
    have hpp : Reaches s p p := by
      rcases hc with rfl | hr
      · exact h
      · exact reaches_trans hr (reaches_of_parent hp)
    simp [chainEnds, hp, ih hpp]

theorem acyclic_of_acyclicB {s : EditorState} (h : acyclicB s = true) :
    Acyclic s := by
  intro a hr
  obtain ⟨e, he⟩ := stored_of_reaches hr
  have hmem : a ∈ s.elements.map Prod.fst := mem_keys_of_dictGet he
  have := (List.all_eq_true.mp h) a hmem
  rw [chainEnds_false_of_cycle hr s.elements.length] at this
  exact Bool.noConfusion this

/-! ### Lemmas about descending child paths -/

theorem dpath_reaches {s : EditorState} {x : String} {l : List String}
    (h : DPath s x l) : ∀ c ∈ l, Reaches s c x := by
  induction h with
  | nil => intro c hc; cases hc
  | cons e hget hpar _ ih =>
    intro d hd
    rcases List.mem_cons.mp hd with rfl | hmem
    · exact reaches_of_parent (parentOf_eq_some.mpr ⟨e, hget, hpar⟩)
    · exact reaches_trans (ih d hmem)
        (reaches_of_parent (parentOf_eq_some.mpr ⟨e, hget, hpar⟩))

theorem dpath_stored {s : EditorState} {x : String} {l : List String}
    (h : DPath s x l) : ∀ c ∈ l, c ∈ s.elements.map Prod.fst := by
  induction h with
  | nil => intro c hc; cases hc
  | cons e hget _ _ ih =>
    intro d hd
    rcases List.mem_cons.mp hd with rfl | hmem
    · exact mem_keys_of_dictGet hget
    · exact ih d hmem

theorem dpath_nodup {s : EditorState} (ha : Acyclic s) {x : String}
    {l : List String} (h : DPath s x l) : l.Nodup := by
  induction h with
  | nil => exact List.nodup_nil
  | cons e hget hpar hd ih =>
    refine List.nodup_cons.mpr ⟨fun hc => ?_, ih⟩
    exact ha _ (dpath_reaches hd _ hc)

theorem dpath_length {s : EditorState} (ha : Acyclic s) {x : String}
    {l : List String} (h : DPath s x l) : l.length ≤ s.elements.length := by
  have hnd := dpath_nodup ha h
  have hsub := dpath_stored h
  calc l.length = l.toFinset.card := (List.toFinset_card_of_nodup hnd).symm
    _ ≤ (s.elements.map Prod.fst).toFinset.card := by
        refine Finset.card_le_card ?_
        intro c hc
        exact List.mem_toFinset.mpr (hsub c (List.mem_toFinset.mp hc))
    _ ≤ (s.elements.map Prod.fst).length := List.toFinset_card_le _
    _ = s.elements.length := List.length_map _ _

theorem dpath_mono_state {s1 s : EditorState} (hs : SubState s1 s)
    {x : String} {l : List String} (h : DPath s1 x l) : DPath s x l := by
  induction h with
  | nil => exact DPath.nil _
  | cons e hget hpar _ ih => exact DPath.cons e (hs _ e hget) hpar ih

/-! ### Children and well-formedness -/

theorem mem_children_iff {s : EditorState} {pid : Option String}
    {e : MapElement} :
    e ∈ children_of s pid ↔
      e ∈ s.elements.map Prod.snd ∧ e.parent_id = pid := by
  unfold children_of
  rw [List.mem_filter]
  simp

theorem wf_value_get {s : EditorState} (hw : Wf s) {e : MapElement}
    (h : e ∈ s.elements.map Prod.snd) : dictGet s.elements e.id = some e := by
  obtain ⟨p, hp, rfl⟩ := List.mem_map.mp h
  have hid : p.2.id = p.1 := hw.2 p hp
  rw [hid]
  exact dictGet_of_mem_nodup hw.1 hp

theorem wf_dictErase {s : EditorState} (hw : Wf s) (x : String) :
    Wf { s with elements := dictErase s.elements x } := by
  have hsub : List.Sublist (dictErase s.elements x) s.elements :=
    dictErase_sublist _ _
  constructor
  · exact List.Nodup.sublist (hsub.map Prod.fst) hw.1
  · intro p hp
    exact hw.2 p (hsub.subset hp)

/-- Surviving elements keep their parent chains: if `a` is outside the
subtree of `c` that a deletion pass removed, any chain it had in `s`
to any target is still intact in the resulting state `s1`. -/
theorem reaches_preserved {s s1 : EditorState} {c : String}
    (hchar : ∀ a, ¬ InSub s c a →
      dictGet s1.elements a = dictGet s.elements a)
    {a d : String} (ha : ¬ InSub s c a) (hr : Reaches s a d) :
    Reaches s1 a d := by
  obtain ⟨n, hn⟩ := hr
  induction n generalizing a with
  | zero => simp [reachesUp] at hn
  | succ k ih =>
    obtain ⟨p, hp, hc⟩ := reachesUp_succ_iff.mp hn
    have hp1 : parentOf s1 a = some p := by
      obtain ⟨e, he, hpe⟩ := parentOf_eq_some.mp hp
      refine parentOf_eq_some.mpr ⟨e, ?_, hpe⟩
      rw [hchar a ha]; exact he
    rcases hc with rfl | hr'
    · exact reaches_of_parent hp1
    · have hnp : ¬ InSub s c p := by
        intro hin
        rcases hin with rfl | hrp
        · exact ha (Or.inr (reaches_of_parent hp))
        · exact ha (Or.inr (reaches_trans (reaches_of_parent hp) hrp))
      exact reaches_step_iff.mpr ⟨p, hp1, Or.inr (ih hnp hr')⟩

theorem insub_preserved {s s1 : EditorState} {c : String}
    (hchar : ∀ a, ¬ InSub s c a →
      dictGet s1.elements a = dictGet s.elements a)
    {a c'' : String} (ha : ¬ InSub s c a) (h : InSub s c'' a) :
    InSub s1 c'' a :=
  h.imp id (reaches_preserved hchar ha)

/-- A chain to `x` decomposes at its last step: some stored element whose
parent reference is literally `x`, itself reached from the start (or equal
to it). -/
theorem reaches_last_step {s : EditorState} {a x : String}
    (h : Reaches s a x) :
    ∃ m e, dictGet s.elements m = some e ∧ e.parent_id = some x ∧
      (m = a ∨ Reaches s a m) := by
  obtain ⟨n, hn⟩ := h
  induction n generalizing a with
  | zero => simp [reachesUp] at hn
  | succ k ih =>
    obtain ⟨p, hp, hc⟩ := reachesUp_succ_iff.mp hn
    rcases hc with rfl | hr'
    · obtain ⟨e, he, hpe⟩ := parentOf_eq_some.mp hp
      exact ⟨a, e, he, hpe, Or.inl rfl⟩
    · obtain ⟨m, e', he', hpe', hm⟩ := ih hr'
      refine ⟨m, e', he', hpe', Or.inr ?_⟩
      rcases hm with rfl | hrm
      · exact reaches_of_parent hp
      · exact reaches_trans (reaches_of_parent hp) hrm

/-- The subtree of `x` is `x` itself plus the subtrees of its children. -/
theorem insub_kids_iff {s : EditorState} (hw : Wf s) (x a : String) :
    InSub s x a ↔
      (a = x ∨
        ∃ c ∈ (children_of s (some x)).map MapElement.id, InSub s c a) := by
  constructor
  · rintro (rfl | hr)
    · exact Or.inl rfl
    · obtain ⟨m, e, he, hpe, hm⟩ := reaches_last_step hr
      have hidm : e.id = m := hw.2 (m, e) (mem_of_dictGet he)
      refine Or.inr ⟨m, ?_, ?_⟩
      · refine List.mem_map.mpr ⟨e, ?_, hidm⟩
        exact mem_children_iff.mpr
          ⟨List.mem_map.mpr ⟨(m, e), mem_of_dictGet he, rfl⟩, hpe⟩
      · rcases hm with rfl | hra
        · exact Or.inl rfl
        · exact Or.inr hra
  · rintro (rfl | ⟨c, hc, hin⟩)
    · exact Or.inl rfl
    · obtain ⟨e, hce, rfl⟩ := List.mem_map.mp hc
      obtain ⟨hv, hpe⟩ := mem_children_iff.mp hce
      have hcx : Reaches s e.id x :=
        reaches_of_parent (parentOf_eq_some.mpr ⟨e, wf_value_get hw hv, hpe⟩)
      rcases hin with rfl | hra
      · exact Or.inr hcx
      · exact Or.inr (reaches_trans hra hcx)

theorem dpath_of_kid {s : EditorState} (hw : Wf s) {x c : String}
    {l : List String}
    (hc : c ∈ (children_of s (some x)).map MapElement.id)
    (h : DPath s c l) : DPath s x (c :: l) := by
  obtain ⟨e, hce, rfl⟩ := List.mem_map.mp hc
  obtain ⟨hv, hpe⟩ := mem_children_iff.mp hce
  exact DPath.cons e (wf_value_get hw hv) hpe h

/-! ### Correctness of recursive deletion -/

theorem substate_of_char {s s' : EditorState} {x : String}
    (h1 : ∀ a, InSub s x a → dictGet s'.elements a = none)
    (h2 : ∀ a, ¬ InSub s x a →
      dictGet s'.elements a = dictGet s.elements a) :
    SubState s' s := by
  intro a e he
  by_cases h : InSub s x a
  · rw [h1 a h] at he; exact Option.noConfusion he
  · rw [h2 a h] at he; exact he

/-- Deleting the subtrees of the ids `cs` one after the other, threading
the state, succeeds and removes exactly the union of the subtrees, given
that each single deletion at fuel `n` behaves as specified. -/
theorem foldDel_spec (n : Nat)
    (Hrec : ∀ s x, Wf s → Acyclic s →
      (∀ l, DPath s x l → l.length < n) →
      ∃ s', delete_rec n s x = some s' ∧ DelChar s x s') :
    ∀ (cs : List String) (s : EditorState), Wf s → Acyclic s →
      (∀ c ∈ cs, ∀ l, DPath s c l → l.length < n) →
      ∃ s', cs.foldlM (fun acc c => delete_rec n acc c) s = some s' ∧
        ListChar s cs s' := by
  intro cs
  induction cs with
  | nil =>
    intro s hw _ _
    refine ⟨s, rfl, ?_, ?_, ?_, fun h => h, rfl, rfl, hw⟩
    · rintro a ⟨c, hc, _⟩; cases hc
    · intro a _; rfl
    · intro y hy
      exact ⟨fun ⟨c, hc, _⟩ => absurd hc (List.not_mem_nil c), fun _ => hy⟩
  | cons c cs ih =>
    intro s hw ha hb
    obtain ⟨s1, h1, g1, g2, g3, g4, gb, gc, gw⟩ :=
      Hrec s c hw ha (hb c (List.mem_cons_self c cs))
    have hsub : SubState s1 s := substate_of_char g1 g2
    have ha1 : Acyclic s1 := acyclic_mono_state hsub ha
    have hb1 : ∀ c' ∈ cs, ∀ l, DPath s1 c' l → l.length < n := by
      intro c' hc' l hl
      exact hb c' (List.mem_cons_of_mem c hc') l (dpath_mono_state hsub hl)
    obtain ⟨s2, h2, f1, f2, f3, f4, fb, fc, fw⟩ := ih s1 gw ha1 hb1
    refine ⟨s2, ?_, ?_, ?_, ?_, ?_, fb.trans gb, fc.trans gc, fw⟩
    · rw [List.foldlM_cons, h1]
      exact h2
    · rintro a ⟨c'', hc'', hin⟩
      by_cases hca : InSub s c a
      · have hnone : dictGet s1.elements a = none := g1 a hca
        by_cases h2a : ∃ c' ∈ cs, InSub s1 c' a
        · exact f1 a h2a
        · rw [f2 a h2a]; exact hnone
      · rcases List.mem_cons.mp hc'' with rfl | hmem
        · exact absurd hin hca
        · exact f1 a ⟨c'', hmem, insub_preserved g2 hca hin⟩
    · intro a hna
      have hnc : ¬ InSub s c a := fun h => hna ⟨c, List.mem_cons_self c cs, h⟩
      have hn1 : ¬ ∃ c' ∈ cs, InSub s1 c' a := by
        rintro ⟨c', hc', hin⟩
        exact hna ⟨c', List.mem_cons_of_mem c hc', insub_mono_state hsub hin⟩
      rw [f2 a hn1, g2 a hnc]
    · intro y hy
      constructor
      · rintro ⟨c'', hc'', hin⟩
        rcases List.mem_cons.mp hc'' with rfl | hmem
        · exact f4 ((g3 y hy).1 hin)
        · by_cases hca : InSub s c y
          · exact f4 ((g3 y hy).1 hca)
          · exact (f3 y ((g3 y hy).2 hca)).1
              ⟨c'', hmem, insub_preserved g2 hca hin⟩
      · intro hna
        have hnc : ¬ InSub s c y := fun h =>
          hna ⟨c, List.mem_cons_self c cs, h⟩
        refine (f3 y ((g3 y hy).2 hnc)).2 ?_
        rintro ⟨c', hc', hin⟩
        exact hna ⟨c', List.mem_cons_of_mem c hc', insub_mono_state hsub hin⟩
    · intro h; exact f4 (g4 h)

theorem deleteFinish_elements (s1 : EditorState) (x : String) :
    (deleteFinish s1 x).elements = dictErase s1.elements x := by
  unfold deleteFinish
  by_cases h : s1.selected_id = some x <;> simp [h]

theorem deleteFinish_selected (s1 : EditorState) (x : String) :
    (deleteFinish s1 x).selected_id =
      if s1.selected_id = some x then none else s1.selected_id := by
  unfold deleteFinish
  by_cases h : s1.selected_id = some x <;> simp [h]

theorem deleteFinish_base (s1 : EditorState) (x : String) :
    (deleteFinish s1 x).base_color = s1.base_color := by
  unfold deleteFinish
  by_cases h : s1.selected_id = some x <;> simp [h]

theorem deleteFinish_contrast (s1 : EditorState) (x : String) :
    (deleteFinish s1 x).contrast = s1.contrast := by
  unfold deleteFinish
  by_cases h : s1.selected_id = some x <;> simp [h]

theorem deleteFinish_wf {s1 : EditorState} (hw : Wf s1) (x : String) :
    Wf (deleteFinish s1 x) := by
  have hwe := wf_dictErase hw x
  constructor
  · rw [deleteFinish_elements]; exact hwe.1
  · rw [deleteFinish_elements]; exact hwe.2

/-- Main specification of recursive deletion at a fixed fuel: given fuel
exceeding the length of every descending child path below `x`, the call
succeeds and removes exactly the subtree of `x`. -/
theorem delete_rec_spec :
    ∀ (n : Nat) (s : EditorState) (x : String), Wf s → Acyclic s →
      (∀ l, DPath s x l → l.length < n) →
      ∃ s', delete_rec n s x = some s' ∧ DelChar s x s' := by
  intro n
  induction n with
  | zero =>
    intro s x _ _ hb
    exact absurd (hb [] (DPath.nil x)) (by omega)
  | succ n ih =>
    intro s x hw ha hb
    have hbk : ∀ c ∈ (children_of s (some x)).map MapElement.id,
        ∀ l, DPath s c l → l.length < n := by
      intro c hc l hl
      have h2 := hb (c :: l) (dpath_of_kid hw hc hl)
      rw [List.length_cons] at h2
      omega
    obtain ⟨s'', hfold, f1, f2, f3, f4, fb, fc, fw⟩ :=
      foldDel_spec n ih ((children_of s (some x)).map MapElement.id) s hw ha hbk
    refine ⟨deleteFinish s'' x, ?_, ?_, ?_, ?_, ?_, ?_, ?_, ?_⟩
    · simp only [delete_rec, hfold]
    · intro a hin
      rw [deleteFinish_elements, dictGet_dictErase]
      rcases (insub_kids_iff hw x a).mp hin with rfl | ⟨c, hc, hinc⟩
      · simp
      · by_cases hax : x = a
        · simp [hax]
        · rw [if_neg hax]
          exact f1 a ⟨c, hc, hinc⟩
    · intro a hn
      have hax : ¬ x = a := by
        intro h
        exact hn ((insub_kids_iff hw x a).mpr (Or.inl h.symm))
      have hnk : ¬ ∃ c ∈ (children_of s (some x)).map MapElement.id,
          InSub s c a := by
        intro hk
        exact hn ((insub_kids_iff hw x a).mpr (Or.inr hk))
      rw [deleteFinish_elements, dictGet_dictErase, if_neg hax]
      exact f2 a hnk
    · intro y hy
      constructor
      · intro hin
        rw [deleteFinish_selected]
        rcases (insub_kids_iff hw x y).mp hin with rfl | ⟨c, hc, hinc⟩
        · by_cases hk : ∃ c ∈ (children_of s (some y)).map MapElement.id,
              InSub s c y
          · simp [(f3 y hy).1 hk]
          · simp [(f3 y hy).2 hk]
        · simp [(f3 y hy).1 ⟨c, hc, hinc⟩]
      · intro hn
        have hyx : ¬ y = x := by
          intro h
          exact hn ((insub_kids_iff hw x y).mpr (Or.inl h))
        have hnk : ¬ ∃ c ∈ (children_of s (some x)).map MapElement.id,
            InSub s c y := by
          intro hk
          exact hn ((insub_kids_iff hw x y).mpr (Or.inr hk))
        rw [deleteFinish_selected, (f3 y hy).2 hnk]
        simp [hyx]
    · intro h
      rw [deleteFinish_selected, f4 h]
      simp
    · rw [deleteFinish_base]; exact fb
    · rw [deleteFinish_contrast]; exact fc
    · exact deleteFinish_wf fw x

/-- Top-level specification: on a well-formed store with acyclic parent
references, `delete_element_recursive` terminates within its fuel and
removes exactly the subtree of the given id. -/
theorem delete_spec (s : EditorState) (x : String) (hw : Wf s)
    (ha : Acyclic s) :
    ∃ s', delete_element_recursive s x = some s' ∧ DelChar s x s' := by
  apply delete_rec_spec (s.elements.length + 1) s x hw ha
  intro l hl
  have := dpath_length ha hl
  omega

/-! ### Selection safety of deletion on arbitrary stores -/

theorem foldDel_sel (n : Nat)
    (H : ∀ s x s', delete_rec n s x = some s' →
      ∀ y, s'.selected_id = some y →
        s.selected_id = some y ∧
        dictGet s'.elements y = dictGet s.elements y) :
    ∀ (cs : List String) (s s' : EditorState),
      cs.foldlM (fun acc c => delete_rec n acc c) s = some s' →
      ∀ y, s'.selected_id = some y →
        s.selected_id = some y ∧
        dictGet s'.elements y = dictGet s.elements y := by
  intro cs
  induction cs with
  | nil =>
    intro s s' h y hy
    cases h
    exact ⟨hy, rfl⟩
  | cons c cs ihl =>
    intro s s' h y hy
    rw [List.foldlM_cons] at h
    cases hc : delete_rec n s c with
    | none => rw [hc] at h; cases h
    | some s1 =>
      rw [hc] at h
      obtain ⟨h1, h2⟩ := ihl s1 s' h y hy
      obtain ⟨h3, h4⟩ := H s c s1 hc y h1
      exact ⟨h3, h2.trans h4⟩

/-- On ANY store (even cyclic ones), a successful deletion that leaves
some id selected had that id selected before and did not remove it: every
erased key is compared against the current selection in the very call that
erases it. -/
theorem delete_rec_sel :
    ∀ (n : Nat) (s : EditorState) (x : String) (s' : EditorState),
      delete_rec n s x = some s' →
      ∀ y, s'.selected_id = some y →
        s.selected_id = some y ∧
        dictGet s'.elements y = dictGet s.elements y := by
  intro n
  induction n with
  | zero =>
    intro s x s' h
    cases h
  | succ n ih =>
    intro s x s' h y hy
    rw [delete_rec] at h
    cases hfold : ((children_of s (some x)).map MapElement.id).foldlM
        (fun acc c => delete_rec n acc c) s with
    | none => rw [hfold] at h; cases h
    | some s1 =>
      rw [hfold] at h
      cases h
      rw [deleteFinish_selected] at hy
      by_cases hsx : s1.selected_id = some x
      · rw [if_pos hsx] at hy; cases hy
      · rw [if_neg hsx] at hy
        obtain ⟨h1, h2⟩ := foldDel_sel n ih _ s s1 hfold y hy
        have hyx : ¬ x = y := by
          intro hh; subst hh; exact hsx hy
        refine ⟨h1, ?_⟩
        rw [deleteFinish_elements, dictGet_dictErase, if_neg hyx]
        exact h2

/-! ### Facts about insertion, loading and serialization -/

theorem dictContains_dictInsert_self {α : Type} (d : List (String × α))
    (k : String) (v : α) : dictContains (dictInsert d k v) k = true := by
  rw [dictContains_iff]
  exact ⟨v, by rw [dictGet_dictInsert]; simp⟩

theorem dictContains_dictInsert_of {α : Type} {d : List (String × α)}
    {y : String} (h : dictContains d y = true) (k : String) (v : α) :
    dictContains (dictInsert d k v) y = true := by
  rw [dictContains_iff] at h ⊢
  obtain ⟨w, hw⟩ := h
  rw [dictGet_dictInsert]
  by_cases hk : k = y
  · exact ⟨v, if_pos hk⟩
  · exact ⟨w, by rw [if_neg hk]; exact hw⟩

theorem selInvB_add (s : EditorState) (e : MapElement) :
    selInvB (s.add_element e) = true := by
  simp [EditorState.add_element, selInvB, dictContains_dictInsert_self]

theorem selInvB_insert {s : EditorState} (h : selInvB s = true)
    (k : String) (v : MapElement) :
    selInvB { s with elements := dictInsert s.elements k v } = true := by
  unfold selInvB at h ⊢
  cases hsel : s.selected_id with
  | none => rfl
  | some y =>
    rw [hsel] at h
    exact dictContains_dictInsert_of h k v

theorem loadElems_cons (s : EditorState) (r : ElemRecord)
    (rs : List ElemRecord) : loadElems s (r :: rs) = .error s := rfl

theorem load_from_dict_cons (s : EditorState) (r : ElemRecord)
    (rs : List ElemRecord) (sel : Option String) (bg : Option BgRecord) :
    load_from_dict s ⟨r :: rs, sel, bg⟩ = ({ s with elements := [] }, false) :=
  rfl

theorem load_from_dict_nil_no_bg (s : EditorState) (sel : Option String) :
    load_from_dict s ⟨[], sel, none⟩ =
      ({ s with elements := [], selected_id := sel }, true) := rfl

theorem to_dict_error {s : EditorState} (h : s.elements ≠ []) :
    s.to_dict = .error .attributeError := by
  unfold EditorState.to_dict
  cases hs : s.elements with
  | nil => exact absurd hs h
  | cons p rest => rfl

theorem to_dict_empty {s : EditorState} (h : s.elements = []) :
    s.to_dict =
      .ok ⟨[], s.selected_id, some ⟨some s.base_color, some s.contrast⟩⟩ := by
  unfold EditorState.to_dict
  rw [h]
  rfl

/-! ### The selection invariant along operation sequences -/

theorem selInvB_update_name {s : EditorState} (h : selInvB s = true)
    (element_id name : String) :
    selInvB (s.update_name element_id name) = true := by
  unfold EditorState.update_name
  cases hg : dictGet s.elements element_id with
  | none => exact h
  | some e => exact selInvB_insert h element_id _

theorem selInvB_update_setting {s : EditorState} (h : selInvB s = true)
    (element_id key value : String) :
    selInvB (s.update_setting element_id key value) = true := by
  unfold EditorState.update_setting
  cases hg : dictGet s.elements element_id with
  | none => exact h
  | some e => exact selInvB_insert h element_id _

theorem selInvB_update_parent {s : EditorState} (h : selInvB s = true)
    (element_id : String) (parent_id : Option String) :
    selInvB (s.update_parent element_id parent_id) = true := by
  unfold EditorState.update_parent
  cases hg : dictGet s.elements element_id with
  | none => exact h
  | some e => exact selInvB_insert h element_id _

theorem selInvB_set_selected (s : EditorState) (i : Option String) :
    selInvB (s.set_selected i) = true := by
  unfold EditorState.set_selected selInvB
  cases i with
  | none => simp
  | some k =>
    by_cases h : dictContains s.elements k = true
    · simp [h]
    · simp [h]

theorem selInvB_delete {s s' : EditorState} {x : String}
    (h : delete_element_recursive s x = some s') (hi : selInvB s = true) :
    selInvB s' = true := by
  unfold selInvB at hi ⊢
  cases hsel : s'.selected_id with
  | none => rfl
  | some y =>
    obtain ⟨h1, h2⟩ := delete_rec_sel _ s x s' h y hsel
    rw [h1] at hi
    show (dictGet s'.elements y).isSome = true
    rw [h2]
    exact hi

theorem reachable_selinv_aux :
    ∀ (b : Bool) (s : EditorState), Reachable b s → b = false →
      selInvB s = true := by
  intro b s h
  induction h with
  | base b => intro _; rfl
  | create t parent_id name x y eid hr ih => intro _; exact selInvB_add _ _
  | add e hr ih => intro _; exact selInvB_add _ _
  | rename element_id name hr ih =>
    intro hb; exact selInvB_update_name (ih hb) element_id name
  | setting element_id key value hr ih =>
    intro hb; exact selInvB_update_setting (ih hb) element_id key value
  | reparent element_id parent_id hr ih =>
    intro hb; exact selInvB_update_parent (ih hb) element_id parent_id
  | del element_id hr hdel ih =>
    intro hb; exact selInvB_delete hdel (ih hb)
  | select element_id hr ih => intro _; exact selInvB_set_selected _ _
  | background color contrast hr ih => intro hb; exact ih hb
  | wipe hr ih => intro _; rfl
  | load d hr ih => intro hb; exact Bool.noConfusion hb

/-! ### The claims -/

/-- C1: The round-trip claim fails on the code: serializing any store that
contains an element raises `AttributeError` (`MapElement` declares no
`to_dict`), evaluated here on the one-element store `sOne`, which is
reachable by a single `create_element`. No document is ever produced, so
no reachable store with an element can be round-tripped. -/
theorem c1_serialize_raises :
    sOne.elements ≠ [] ∧ sOne.to_dict = Except.error PyErr.attributeError :=
  ⟨by decide, rfl⟩

/-- C2: `save_to_file` returns `False` for every store holding at least
one element (`element.to_dict()` raises and the handler converts the
failure to a boolean), and only for the element-free store does it write
the document and return `True` (granted a succeeding filesystem write). -/
theorem c2_save_to_file_spec (s : EditorState) (w : Bool) :
    (s.elements ≠ [] → save_to_file s w = (false, none)) ∧
    (s.elements = [] → w = true →
      save_to_file s w =
        (true, some ⟨[], s.selected_id,
          some ⟨some s.base_color, some s.contrast⟩⟩)) := by
  constructor
  · intro h
    unfold save_to_file
    rw [to_dict_error h]
  · intro h hw
    subst hw
    unfold save_to_file
    rw [to_dict_empty h]
    rfl

/-- C2 witness: the one-element store fails to save; the empty store
saves successfully and writes the expected document. -/
theorem c2_save_to_file_witness :
    save_to_file sOne true = (false, none) ∧
    save_to_file EditorState.init true =
      (true, some ⟨[], none, some ⟨some "#d9d9d9", some (Rat.mk' 3 4)⟩⟩) :=
  ⟨(c2_save_to_file_spec sOne true).1 (by decide),
   (c2_save_to_file_spec EditorState.init true).2 rfl rfl⟩

/-- C3 counterexample: loading a document whose first record carries an
unrecognized type tag over the one-element store `sOne` returns failure,
but the store afterwards differs from the store before the call — the
element mapping was cleared before the failure. -/
theorem c3_counterexample :
    ElementType.fromValue? "没有这种类型" = none ∧
    (load_from_file sOne (some docBadTag)).2 = false ∧
    (load_from_file sOne (some docBadTag)).1 ≠ sOne := by
  refine ⟨by decide, rfl, by decide⟩

/-- C3 amended: `load_from_file` on a document whose first element record
carries an unrecognized type tag returns failure, and the selection and
background fields keep their prior values, but the element mapping is
cleared — the prior elements are lost, the store is NOT left unchanged. -/
theorem c3_load_failure_clears_elements (s : EditorState) (r : ElemRecord)
    (rs : List ElemRecord) (sel : Option String) (bg : Option BgRecord)
    (htag : ElementType.fromValue? r.type_tag = none) :
    load_from_file s (some ⟨r :: rs, sel, bg⟩) =
      ({ s with elements := [] }, false) :=
  load_from_dict_cons s r rs sel bg

/-- C3 witness: the amended behavior evaluated on `sOne` and `docBadTag`. -/
theorem c3_witness :
    ElementType.fromValue? "没有这种类型" = none ∧
    load_from_file sOne (some docBadTag) =
      ({ sOne with elements := [] }, false) :=
  ⟨by decide,
   c3_load_failure_clears_elements sOne ⟨"没有这种类型"⟩ [] none none
     (by decide)⟩

/-- C4 counterexample: the store `sGhost` — no elements, selection
`"ghost"` — is reachable (deserializing `docSel` into the fresh store),
yet its selected id is neither `None` nor a key of the element mapping. -/
theorem c4_counterexample :
    Reachable true sGhost ∧ selInvB sGhost = false := by
  constructor
  · have h := Reachable.load docSel (Reachable.base true)
    have heq : (load_from_dict EditorState.init docSel).1 = sGhost := by
      decide
    rw [heq] at h
    exact h
  · decide

/-- C4 amended: for every store reachable from the empty store through
the public mutating operations EXCLUDING deserialization, the selected id
is `None` or a key currently present in the element mapping;
deserialization can break the invariant by restoring a dangling
selection unvalidated. -/
theorem c4_selection_invariant (s : EditorState)
    (h : Reachable false s) : selInvB s = true :=
  reachable_selinv_aux false s h rfl

/-- C4 witness: the invariant evaluated on a store reached by one add. -/
theorem c4_witness : selInvB (EditorState.init.add_element treeA) = true :=
  c4_selection_invariant _ (Reachable.add treeA (Reachable.base false))

/-- C5 counterexample: on the reachable store `sGhost` (parent graph
trivially acyclic) the id `"ghost"` is absent and has no children, yet
`delete_element_recursive "ghost"` is not a silent no-op: it clears the
dangling selection. -/
theorem c5_counterexample :
    acyclicB sGhost = true ∧
    dictGet sGhost.elements "ghost" = none ∧
    children_of sGhost (some "ghost") = [] ∧
    delete_element_recursive sGhost "ghost" ≠ some sGhost := by
  refine ⟨rfl, rfl, rfl, by decide⟩

/-- C5 amended: on a well-formed store with acyclic parent references,
`delete_element_recursive x` succeeds and removes exactly the elements
whose parent chain reaches `x` (including `x` itself when present) and no
others; when `x` is absent and childless, the element mapping is unchanged
and the call is a complete no-op unless the (necessarily dangling)
selection equals `x`, in which case only the selection is cleared. -/
theorem c5_delete_removes_subtree (s : EditorState) (x : String)
    (hw : Wf s) (ha : Acyclic s) :
    ∃ s', delete_element_recursive s x = some s' ∧
      (∀ a, InSub s x a → dictGet s'.elements a = none) ∧
      (∀ a, ¬ InSub s x a → dictGet s'.elements a = dictGet s.elements a) ∧
      (dictGet s.elements x = none → children_of s (some x) = [] →
        s' = if s.selected_id = some x then { s with selected_id := none }
             else s) := by
  obtain ⟨s', hdel, d1, d2, _, _, _⟩ := delete_spec s x hw ha
  refine ⟨s', hdel, d1, d2, ?_⟩
  intro hx hch
  have hcomp : delete_element_recursive s x = some (deleteFinish s x) := by
    unfold delete_element_recursive
    rw [delete_rec, hch]
    rfl
  rw [hcomp] at hdel
  injection hdel with hdel'
  subst hdel'
  by_cases hsel : s.selected_id = some x <;>
    simp [deleteFinish, dictErase_of_not_mem hx, hsel]

/-- C5 witness: the amended statement applied to the concrete tree store
`sTree` at the subtree root `"a"`. -/
theorem c5_witness :
    Wf sTree ∧ acyclicB sTree = true ∧
    ∃ s', delete_element_recursive sTree "a" = some s' ∧
      (∀ a, InSub sTree "a" a → dictGet s'.elements a = none) ∧
      (∀ a, ¬ InSub sTree "a" a →
        dictGet s'.elements a = dictGet sTree.elements a) ∧
      (dictGet sTree.elements "a" = none →
        children_of sTree (some "a") = [] →
        s' = if sTree.selected_id = some "a" then
          { sTree with selected_id := none } else sTree) :=
  ⟨by decide, by decide,
   c5_delete_removes_subtree sTree "a" (by decide)
     (acyclic_of_acyclicB (by decide))⟩

/-- C6: under a well-formed acyclic store, deleting `x` clears the
selection when the previously selected element is `x` or one of its
descendants, and leaves the selection unchanged when the selected element
lies outside the deleted subtree. -/
theorem c6_delete_selection (s : EditorState) (x : String)
    (hw : Wf s) (ha : Acyclic s) :
    ∃ s', delete_element_recursive s x = some s' ∧
      (∀ y, s.selected_id = some y → InSub s x y →
        s'.selected_id = none) ∧
      (∀ y, s.selected_id = some y → ¬ InSub s x y →
        s'.selected_id = some y) := by
  obtain ⟨s', hdel, _, _, d3, _, _⟩ := delete_spec s x hw ha
  exact ⟨s', hdel, fun y hy hin => (d3 y hy).1 hin,
    fun y hy hn => (d3 y hy).2 hn⟩

/-- C6 witness: applied to `sTree` (selection `"c"`, a descendant of
`"b"`) deleting `"b"`. -/
theorem c6_witness :
    Wf sTree ∧ acyclicB sTree = true ∧
    ∃ s', delete_element_recursive sTree "b" = some s' ∧
      (∀ y, sTree.selected_id = some y → InSub sTree "b" y →
        s'.selected_id = none) ∧
      (∀ y, sTree.selected_id = some y → ¬ InSub sTree "b" y →
        s'.selected_id = some y) :=
  ⟨by decide, by decide,
   c6_delete_selection sTree "b" (by decide)
     (acyclic_of_acyclicB (by decide))⟩

/-- C7: `set_selected` stores the id when it is a live key of the element
mapping and `None` otherwise (also for a `None` argument), and changes no
other field of the store. -/
theorem c7_set_selected_spec (s : EditorState) (y : String)
    (i : Option String) :
    (dictContains s.elements y = true →
      (s.set_selected (some y)).selected_id = some y) ∧
    (dictContains s.elements y = false →
      (s.set_selected (some y)).selected_id = none) ∧
    (s.set_selected none).selected_id = none ∧
    (s.set_selected i).elements = s.elements ∧
    (s.set_selected i).base_color = s.base_color ∧
    (s.set_selected i).contrast = s.contrast := by
  refine ⟨?_, ?_, rfl, rfl, rfl, rfl⟩
  · intro h; simp [EditorState.set_selected, h]
  · intro h; simp [EditorState.set_selected, h]

/-- C7 witness: the live key `"a"` is selected, the dead key `"zz"`
clears the selection. -/
theorem c7_witness :
    (sTree.set_selected (some "a")).selected_id = some "a" ∧
    (sTree.set_selected (some "zz")).selected_id = none :=
  ⟨(c7_set_selected_spec sTree "a" none).1 (by decide),
   (c7_set_selected_spec sTree "zz" none).2.1 (by decide)⟩

/-- C8 counterexample: deserializing the background-free document `d8`
over the store `s8` (background `#112233`, contrast `1/2`) leaves those
prior values, not the defaults `#d9d9d9` / `0.75` the claim requires. -/
theorem c8_counterexample :
    d8.background = none ∧
    (load_from_dict s8 d8).1.base_color ≠ "#d9d9d9" ∧
    (load_from_dict s8 d8).1.contrast ≠ Rat.mk' 3 4 := by
  refine ⟨rfl, by decide, by decide⟩

/-- C8 amended: deserializing a document without a background sub-record
leaves the background color and contrast at their PRIOR values — which
equal the neutral-gray default `#d9d9d9` and `0.75` exactly when the
store still carried them. -/
theorem c8_load_keeps_prior_background (s : EditorState) (d : Doc)
    (h : d.background = none) :
    (load_from_dict s d).1.base_color = s.base_color ∧
    (load_from_dict s d).1.contrast = s.contrast := by
  obtain ⟨els, sel, bg⟩ := d
  cases h
  cases els with
  | nil => exact ⟨rfl, rfl⟩
  | cons r rs => exact ⟨rfl, rfl⟩

/-- C8 witness: the amended statement evaluated on `s8` and `d8`. -/
theorem c8_witness :
    (load_from_dict s8 d8).1.base_color = s8.base_color ∧
    (load_from_dict s8 d8).1.contrast = s8.contrast :=
  c8_load_keeps_prior_background s8 d8 rfl

/-- C9: `update_setting` on a live id rewrites exactly the given settings
key of exactly that element, leaving its other settings keys, all other
elements, the selection and the background unchanged; on a dead id it is
a no-op (and raises nothing). -/
theorem c9_update_setting_spec (s : EditorState)
    (element_id key value : String) :
    (∀ e, dictGet s.elements element_id = some e →
      dictGet (s.update_setting element_id key value).elements element_id =
        some { e with settings := dictInsert e.settings key value } ∧
      (∀ a, a ≠ element_id →
        dictGet (s.update_setting element_id key value).elements a =
          dictGet s.elements a) ∧
      dictGet (dictInsert e.settings key value) key = some value ∧
      (∀ k', k' ≠ key →
        dictGet (dictInsert e.settings key value) k' =
          dictGet e.settings k')) ∧
    ((s.update_setting element_id key value).selected_id = s.selected_id ∧
     (s.update_setting element_id key value).base_color = s.base_color ∧
     (s.update_setting element_id key value).contrast = s.contrast) ∧
    (dictGet s.elements element_id = none →
      s.update_setting element_id key value = s) := by
  cases hg : dictGet s.elements element_id with
  | none =>
    have hup : s.update_setting element_id key value = s := by
      unfold EditorState.update_setting; rw [hg]
    refine ⟨?_, ?_, fun _ => hup⟩
    · intro e he; cases he
    · rw [hup]; exact ⟨rfl, rfl, rfl⟩
  | some e0 =>
    have hup : s.update_setting element_id key value =
        { s with elements := (dictInsert s.elements element_id
            { e0 with settings := dictInsert e0.settings key value }) } := by
      unfold EditorState.update_setting; rw [hg]
    refine ⟨?_, ?_, ?_⟩
    · intro e he
      injection he with he'
      subst he'
      refine ⟨?_, ?_, ?_, ?_⟩
      · rw [hup]
        show dictGet (dictInsert s.elements element_id _) element_id = _
        rw [dictGet_dictInsert]
        simp
      · intro a ha
        rw [hup]
        show dictGet (dictInsert s.elements element_id _) a = _
        rw [dictGet_dictInsert, if_neg (fun hh => ha hh.symm)]
      · rw [dictGet_dictInsert]; simp
      · intro k' hk'
        rw [dictGet_dictInsert, if_neg (fun hh => hk' hh.symm)]
    · rw [hup]; exact ⟨rfl, rfl, rfl⟩
    · intro hnone; cases hnone

/-- C9 witness: updating the `"备注"` key of element `"a"` in `sTree`,
and the no-op on the dead id `"zz"`. -/
theorem c9_witness :
    dictGet (sTree.update_setting "a" "备注" "hi").elements "a" =
      some { treeA with settings := dictInsert treeA.settings "备注" "hi" } ∧
    dictGet (sTree.update_setting "a" "备注" "hi").elements "b" =
      dictGet sTree.elements "b" ∧
    sTree.update_setting "zz" "备注" "hi" = sTree :=
  ⟨((c9_update_setting_spec sTree "a" "备注" "hi").1 treeA (by decide)).1,
   ((c9_update_setting_spec sTree "a" "备注" "hi").1 treeA
     (by decide)).2.1 "b" (by decide),
   (c9_update_setting_spec sTree "zz" "备注" "hi").2.2 (by decide)⟩

/-- C10: creating an element with no explicit name yields the type's
display label, a dash, and the first four characters of the generated id —
in particular the name begins with the type's label. -/
theorem c10_default_name (t : ElementType) (parent_id : Option String)
    (pos : Rat × Rat) (eid : String) :
    (MapElement.create t none parent_id pos eid).name =
      t.value ++ "-" ++ eid.take 4 ∧
    ∃ rest, (MapElement.create t none parent_id pos eid).name =
      t.value ++ rest :=
  ⟨rfl, ⟨"-" ++ eid.take 4, by
    show t.value ++ "-" ++ eid.take 4 = t.value ++ ("-" ++ eid.take 4)
    exact String.append_assoc _ _ _⟩⟩

end EasyMap
